import Mathlib

/-!
Verification of the 2-D adaptive-smoothing accumulator
(`adaptive_smoothing.c`): the SPH kernel evaluator `sph_kernel`, the
coordinate mapper `rhalfs_to_pixels`, and the accumulator `add`, modelled
in exact real arithmetic.
-/

namespace AdaptiveSmoothing

/-- First branch polynomial of the kernel, `1.0 - 6.0*x*x + 6.0*x*x*x`
(line 13 of the C source). -/
noncomputable def kernelBranch1 (x : ℝ) : ℝ := 1 - 6 * x * x + 6 * x * x * x

/-- Second branch polynomial of the kernel,
`2.0 * (1.0 - x) * (1.0 - x) * (1.0 - x)` (line 15 of the C source). -/
noncomputable def kernelBranch2 (x : ℝ) : ℝ := 2 * (1 - x) * (1 - x) * (1 - x)

/-- The unnormalized piecewise kernel `retval` as computed by the branch
cascade in `sph_kernel` (lines 12-17 of the C source). -/
noncomputable def kernelShape (x : ℝ) : ℝ :=
  if x ≤ 1 / 2 then kernelBranch1 x
  else if x ≤ 1 then kernelBranch2 x
  else 0

/-- `sph_kernel(r, h)`: sets `x = r / h`, computes `retval` by the branch
cascade and returns `4.0 * 10.0 / (7.0*pi*h*h) * retval`. -/
noncomputable def sph_kernel (r h : ℝ) : ℝ :=
  4 * 10 / (7 * Real.pi * h * h) * kernelShape (r / h)

/-- `rhalfs_to_pixels(r, npix, num_rhalfs)`:
`(int) floor(npix/2.0 + r*npix/(2.0*num_rhalfs))`, with real division and
floor toward minus infinity. -/
noncomputable def rhalfs_to_pixels (r : ℝ) (npix : ℤ) (num_rhalfs : ℝ) : ℤ :=
  ⌊(npix : ℝ) / 2 + r * npix / (2 * num_rhalfs)⌋

/-- The constant `num_hsml = 2.8` (line 30 of the C source). -/
noncomputable def num_hsml : ℝ := 2.8

/-- One point source: position `(x0, y0)`, weight and smoothing length,
i.e. the k-th entries of the arrays `x0`, `y0`, `weights`, `hsml`. -/
structure Source where
  x0 : ℝ
  y0 : ℝ
  weight : ℝ
  hsml : ℝ

/-- The support radius `h = num_hsml * hsml[k]` (line 33 of the C source). -/
noncomputable def hOf (s : Source) : ℝ := num_hsml * s.hsml

/-- `imin = (int) fmax(0, rhalfs_to_pixels(y0[k]-h, ny, num_rhalfs))`
(line 34 of the C source). -/
noncomputable def iminOf (s : Source) (ny : ℤ) (R : ℝ) : ℤ :=
  max 0 (rhalfs_to_pixels (s.y0 - hOf s) ny R)

/-- `imax = (int) fmin(ny-1, rhalfs_to_pixels(y0[k]+h, ny, num_rhalfs))`
(line 35 of the C source). -/
noncomputable def imaxOf (s : Source) (ny : ℤ) (R : ℝ) : ℤ :=
  min (ny - 1) (rhalfs_to_pixels (s.y0 + hOf s) ny R)

/-- `jmin = (int) fmax(0, rhalfs_to_pixels(x0[k]-h, nx, num_rhalfs))`
(line 36 of the C source). -/
noncomputable def jminOf (s : Source) (nx : ℤ) (R : ℝ) : ℤ :=
  max 0 (rhalfs_to_pixels (s.x0 - hOf s) nx R)

/-- `jmax = (int) fmin(nx-1, rhalfs_to_pixels(x0[k]+h, nx, num_rhalfs))`
(line 37 of the C source). -/
noncomputable def jmaxOf (s : Source) (nx : ℤ) (R : ℝ) : ℤ :=
  min (nx - 1) (rhalfs_to_pixels (s.x0 + hOf s) nx R)

/-- The list `a, a+1, ..., b` (inclusive), i.e. the index sequence of a C
loop `for (i = a; i < b+1; i++)`; empty when `b < a`. -/
def intRange (a b : ℤ) : List ℤ :=
  (List.range (b + 1 - a).toNat).map fun t : ℕ => a + (t : ℤ)

/-- The body of the inner loop (lines 40-42 of the C source): compute
`n = i*ny + j`, `r = sqrt((X[n]-x0)*(X[n]-x0) + (Y[n]-y0)*(Y[n]-y0))` and
perform `Z[n] += w * sph_kernel(r, h)`. -/
noncomputable def depositCell (X Y : ℤ → ℝ) (ny : ℤ) (x0 y0 w h : ℝ) (i j : ℤ)
    (Z : ℤ → ℝ) : ℤ → ℝ :=
  let n := i * ny + j
  let r := Real.sqrt ((X n - x0) * (X n - x0) + (Y n - y0) * (Y n - y0))
  Function.update Z n (Z n + w * sph_kernel r h)

/-- The inner loop over `j` (line 39 of the C source) for a fixed row `i`. -/
noncomputable def depositRow (X Y : ℤ → ℝ) (ny : ℤ) (x0 y0 w h : ℝ) (i : ℤ)
    (js : List ℤ) (Z : ℤ → ℝ) : ℤ → ℝ :=
  js.foldl (fun Zacc j => depositCell X Y ny x0 y0 w h i j Zacc) Z

/-- The outer loop over `i` (line 38 of the C source): for each row index
in `is`, run the inner loop over the column indices `js`. -/
noncomputable def depositRows (X Y : ℤ → ℝ) (ny : ℤ) (x0 y0 w h : ℝ)
    (is js : List ℤ) (Z : ℤ → ℝ) : ℤ → ℝ :=
  is.foldl (fun Zacc i => depositRow X Y ny x0 y0 w h i js Zacc) Z

/-- The per-source body of `add` (lines 33-44 of the C source): compute
`h` and the clipped bounds, then run the double loop over the inclusive
rectangle `[imin, imax] x [jmin, jmax]`. -/
noncomputable def addSource (X Y : ℤ → ℝ) (nx ny : ℤ) (R : ℝ) (s : Source)
    (Z : ℤ → ℝ) : ℤ → ℝ :=
  depositRows X Y ny s.x0 s.y0 s.weight (hOf s)
    (intRange (iminOf s ny R) (imaxOf s ny R))
    (intRange (jminOf s nx R) (jmaxOf s nx R)) Z

/-- `add(X, Y, Z, nx, ny, x0, y0, weights, hsml, npoints, num_rhalfs)`:
the outer loop over sources `k = 0 .. npoints-1` (line 32 of the C
source), threading the output grid `Z` through each per-source update. -/
noncomputable def add (X Y : ℤ → ℝ) (nx ny : ℤ) (R : ℝ) (srcs : List Source)
    (Z : ℤ → ℝ) : ℤ → ℝ :=
  srcs.foldl (fun Zacc s => addSource X Y nx ny R s Zacc) Z

/-- The raw kernel as the spec writes it (section 4.2): three cases on
`x`, the first one guarded by `0 ≤ x`. -/
noncomputable def W_raw_spec (x : ℝ) : ℝ :=
  if 0 ≤ x ∧ x ≤ 1 / 2 then 1 - 6 * x ^ 2 + 6 * x ^ 3
  else if 1 / 2 < x ∧ x ≤ 1 then 2 * (1 - x) ^ 3
  else 0

/-- The per-source, per-cell total as the spec describes it (section 4.3,
step 3): the sum over the inclusive clipped rectangle of
`weights[k] * W(r, h)` at the cells whose linear index `i*ny + j` equals
`n`, with `r = sqrt((X[n]-x0)^2 + (Y[n]-y0)^2)` and `h = 2.8 * hsml[k]`. -/
noncomputable def specContribution (X Y : ℤ → ℝ) (nx ny : ℤ) (R : ℝ)
    (s : Source) (n : ℤ) : ℝ :=
  ∑ i ∈ Finset.Icc (iminOf s ny R) (imaxOf s ny R),
    ∑ j ∈ Finset.Icc (jminOf s nx R) (jmaxOf s nx R),
      if i * ny + j = n then
        s.weight *
          sph_kernel
            (Real.sqrt ((X (i * ny + j) - s.x0) ^ 2 + (Y (i * ny + j) - s.y0) ^ 2))
            (num_hsml * s.hsml)
      else 0

/-- The row bounds as claimed in the spec's section 6 axis conventions:
`x0` resolved against `ny` (this is the claimed pairing, to be compared
with the code's `iminOf`/`imaxOf`). -/
noncomputable def claimedRowBounds (s : Source) (ny : ℤ) (R : ℝ) : ℤ × ℤ :=
  (max 0 (rhalfs_to_pixels (s.x0 - hOf s) ny R),
   min (ny - 1) (rhalfs_to_pixels (s.x0 + hOf s) ny R))

/-- The column bounds as claimed in the spec's section 6 axis conventions:
`y0` resolved against `nx`. -/
noncomputable def claimedColBounds (s : Source) (nx : ℤ) (R : ℝ) : ℤ × ℤ :=
  (max 0 (rhalfs_to_pixels (s.y0 - hOf s) nx R),
   min (nx - 1) (rhalfs_to_pixels (s.y0 + hOf s) nx R))

/-- The row bounds with the corrected pairing: `y0` resolved against `ny`,
written out from the amended claim's words. -/
noncomputable def amendedRowBounds (s : Source) (ny : ℤ) (R : ℝ) : ℤ × ℤ :=
  (max 0 (rhalfs_to_pixels (s.y0 - hOf s) ny R),
   min (ny - 1) (rhalfs_to_pixels (s.y0 + hOf s) ny R))

/-- The column bounds with the corrected pairing: `x0` resolved against
`nx`, written out from the amended claim's words. -/
noncomputable def amendedColBounds (s : Source) (nx : ℤ) (R : ℝ) : ℤ × ℤ :=
  (max 0 (rhalfs_to_pixels (s.x0 - hOf s) nx R),
   min (nx - 1) (rhalfs_to_pixels (s.x0 + hOf s) nx R))

/-- The set of linear indices `n = i*ny + j` that the inner loops of `add`
touch for the source `s`: row `i` ranges over the clipped `[imin, imax]`
and column `j` over the clipped `[jmin, jmax]`. -/
def accesses (nx ny : ℤ) (R : ℝ) (s : Source) (n : ℤ) : Prop :=
  ∃ i j : ℤ,
    iminOf s ny R ≤ i ∧ i ≤ imaxOf s ny R ∧
    jminOf s nx R ≤ j ∧ j ≤ jmaxOf s nx R ∧
    n = i * ny + j

/-! ### Helper lemmas about the kernel shape -/

lemma kernelBranch1_ge_quarter (x : ℝ) (hx : 0 ≤ x) (hx2 : x ≤ 1 / 2) :
    1 / 4 ≤ kernelBranch1 x := by
  unfold kernelBranch1
  have k1 : 0 ≤ 1 - 2 * x := by linarith
  have k2 : 0 ≤ 1 + 2 * x - 4 * x ^ 2 := by nlinarith [mul_nonneg hx k1]
  nlinarith [mul_nonneg k1 k2]

lemma kernelBranch2_nonneg (x : ℝ) (hx : x ≤ 1) : 0 ≤ kernelBranch2 x := by
  unfold kernelBranch2
  have k : 0 ≤ 1 - x := by linarith
  nlinarith [mul_nonneg (mul_nonneg k k) k]

lemma kernelShape_nonneg (x : ℝ) (hx : 0 ≤ x) : 0 ≤ kernelShape x := by
  unfold kernelShape
  split_ifs with h1 h2
  · linarith [kernelBranch1_ge_quarter x hx h1]
  · exact kernelBranch2_nonneg x h2
  · exact le_refl 0

lemma kernelShape_eq_W_raw_spec (x : ℝ) (hx : 0 ≤ x) :
    kernelShape x = W_raw_spec x := by
  simp only [kernelShape, W_raw_spec, kernelBranch1, kernelBranch2]
  by_cases h1 : x ≤ 1 / 2
  · rw [if_pos h1, if_pos ⟨hx, h1⟩]
    ring
  · by_cases h2 : x ≤ 1
    · rw [if_neg h1, if_pos h2, if_neg (fun c => h1 c.2),
        if_pos ⟨lt_of_not_le h1, h2⟩]
      ring
    · rw [if_neg h1, if_neg h2, if_neg (fun c => h1 c.2),
        if_neg (fun c => h2 c.2)]

lemma kernel_norm_pos (h : ℝ) (hh : 0 < h) : 0 < 4 * 10 / (7 * Real.pi * h * h) := by
  have hpi := Real.pi_pos
  positivity

/-! ### C3, C5, C9: kernel evaluator claims -/

/-- C3: for r ≥ 0, h > 0, `sph_kernel(r, h)` equals the spec's
`(40 / (7 pi h^2)) * W_raw(r/h)` with the 2-D normalization constant
40/(7 pi), and is a non-negative real. -/
theorem sph_kernel_eq_spec_W (r h : ℝ) (hr : 0 ≤ r) (hh : 0 < h) :
    sph_kernel r h = 40 / (7 * Real.pi * h ^ 2) * W_raw_spec (r / h) ∧
    0 ≤ sph_kernel r h := by
  have hx : 0 ≤ r / h := div_nonneg hr hh.le
  have hshape : kernelShape (r / h) = W_raw_spec (r / h) :=
    kernelShape_eq_W_raw_spec _ hx
  constructor
  · rw [sph_kernel, hshape]
    ring_nf
  · rw [sph_kernel]
    exact mul_nonneg (kernel_norm_pos h hh).le (kernelShape_nonneg _ hx)

/-- Witness for C3 at r = 0, h = 1. -/
theorem sph_kernel_eq_spec_W_witness :
    (0:ℝ) ≤ 0 ∧ (0:ℝ) < 1 ∧
    (sph_kernel 0 1 = 40 / (7 * Real.pi * 1 ^ 2) * W_raw_spec (0 / 1) ∧
      0 ≤ sph_kernel 0 1) :=
  ⟨le_refl 0, by norm_num, sph_kernel_eq_spec_W 0 1 (le_refl 0) (by norm_num)⟩

/-- C5: for h > 0 and r > h the kernel evaluator returns exactly zero. -/
theorem sph_kernel_compact_support (r h : ℝ) (hh : 0 < h) (hr : h < r) :
    sph_kernel r h = 0 := by
  have hx : 1 < r / h := (one_lt_div hh).mpr hr
  have hz : kernelShape (r / h) = 0 := by
    unfold kernelShape
    rw [if_neg (by linarith), if_neg (by linarith)]
  rw [sph_kernel, hz, mul_zero]

/-- Witness for C5 at r = 2, h = 1. -/
theorem sph_kernel_compact_support_witness :
    (0:ℝ) < 1 ∧ (1:ℝ) < 2 ∧ sph_kernel 2 1 = 0 :=
  ⟨by norm_num, by norm_num, sph_kernel_compact_support 2 1 (by norm_num) (by norm_num)⟩

/-- C9: the two branch polynomials agree at the breakpoint x = 1/2, with
the common value 1/4 before normalization; the second branch takes the
value 0 at x = 1, matching the zero branch used for x > 1 (so the
unnormalized kernel shape is 0 at x = 1). -/
theorem kernel_branches_agree_at_breakpoints :
    kernelBranch1 (1 / 2) = 1 / 4 ∧ kernelBranch2 (1 / 2) = 1 / 4 ∧
    kernelBranch2 1 = 0 ∧ kernelShape 1 = 0 := by
  norm_num [kernelBranch1, kernelBranch2, kernelShape]

/-! ### C6: coordinate-mapper anchor values -/

/-- C6: in exact real arithmetic, for npix ≥ 1 and R > 0 the coordinate
mapper satisfies index(0) = floor(npix/2), index(R) = npix (one past the
last cell) and index(-R) = 0. -/
theorem rhalfs_to_pixels_anchors (npix : ℤ) (hn : 1 ≤ npix) (R : ℝ) (hR : 0 < R) :
    rhalfs_to_pixels 0 npix R = ⌊(npix : ℝ) / 2⌋ ∧
    rhalfs_to_pixels R npix R = npix ∧
    rhalfs_to_pixels (-R) npix R = 0 := by
  have hR0 : R ≠ 0 := ne_of_gt hR
  refine ⟨?_, ?_, ?_⟩
  · unfold rhalfs_to_pixels
    norm_num
  · unfold rhalfs_to_pixels
    have e : (npix : ℝ) / 2 + R * npix / (2 * R) = npix := by
      field_simp
      ring
    rw [e, Int.floor_intCast]
  · unfold rhalfs_to_pixels
    have e : (npix : ℝ) / 2 + (-R) * npix / (2 * R) = 0 := by
      field_simp
      ring
    rw [e, Int.floor_zero]

/-- Witness for C6 at npix = 5, R = 1. -/
theorem rhalfs_to_pixels_anchors_witness :
    (1:ℤ) ≤ 5 ∧ (0:ℝ) < 1 ∧
    (rhalfs_to_pixels 0 5 1 = ⌊(5 : ℝ) / 2⌋ ∧
      rhalfs_to_pixels 1 5 1 = 5 ∧
      rhalfs_to_pixels (-1) 5 1 = 0) :=
  ⟨by norm_num, by norm_num, rhalfs_to_pixels_anchors 5 (by norm_num) 1 (by norm_num)⟩

/-! ### Loop-unrolling lemmas for the accumulator -/

/-- The value the inner loop body adds at loop coordinates (i, j). -/
noncomputable def cellTerm (X Y : ℤ → ℝ) (ny : ℤ) (x0 y0 w h : ℝ) (i j : ℤ) : ℝ :=
  w * sph_kernel
    (Real.sqrt ((X (i * ny + j) - x0) * (X (i * ny + j) - x0) +
      (Y (i * ny + j) - y0) * (Y (i * ny + j) - y0))) h

lemma depositCell_apply (X Y : ℤ → ℝ) (ny : ℤ) (x0 y0 w h : ℝ) (i j : ℤ)
    (Z : ℤ → ℝ) (n : ℤ) :
    depositCell X Y ny x0 y0 w h i j Z n =
      Z n + (if i * ny + j = n then cellTerm X Y ny x0 y0 w h i j else 0) := by
  simp only [depositCell, cellTerm, Function.update_apply]
  by_cases e : n = i * ny + j
  · subst e
    rw [if_pos rfl, if_pos rfl]
  · rw [if_neg e, if_neg fun c => e c.symm, add_zero]

lemma depositRow_cons (X Y : ℤ → ℝ) (ny : ℤ) (x0 y0 w h : ℝ) (i j : ℤ)
    (js : List ℤ) (Z : ℤ → ℝ) :
    depositRow X Y ny x0 y0 w h i (j :: js) Z =
      depositRow X Y ny x0 y0 w h i js (depositCell X Y ny x0 y0 w h i j Z) := rfl

lemma depositRow_apply (X Y : ℤ → ℝ) (ny : ℤ) (x0 y0 w h : ℝ) (i : ℤ)
    (js : List ℤ) (Z : ℤ → ℝ) (n : ℤ) :
    depositRow X Y ny x0 y0 w h i js Z n =
      Z n + ((js.map fun j =>
        if i * ny + j = n then cellTerm X Y ny x0 y0 w h i j else 0)).sum := by
  induction js generalizing Z with
  | nil => simp [depositRow]
  | cons j js ih =>
      rw [depositRow_cons, ih, depositCell_apply, List.map_cons, List.sum_cons]
      ring

lemma depositRows_cons (X Y : ℤ → ℝ) (ny : ℤ) (x0 y0 w h : ℝ) (i : ℤ)
    (is js : List ℤ) (Z : ℤ → ℝ) :
    depositRows X Y ny x0 y0 w h (i :: is) js Z =
      depositRows X Y ny x0 y0 w h is js
        (depositRow X Y ny x0 y0 w h i js Z) := rfl

lemma depositRows_apply (X Y : ℤ → ℝ) (ny : ℤ) (x0 y0 w h : ℝ)
    (is js : List ℤ) (Z : ℤ → ℝ) (n : ℤ) :
    depositRows X Y ny x0 y0 w h is js Z n =
      Z n + ((is.map fun i => ((js.map fun j =>
        if i * ny + j = n then cellTerm X Y ny x0 y0 w h i j else 0)).sum)).sum := by
  induction is generalizing Z with
  | nil => simp [depositRows]
  | cons i is ih =>
      rw [depositRows_cons, ih, depositRow_apply, List.map_cons, List.sum_cons]
      ring

/-! ### From loop index lists to interval sums -/

lemma intRange_empty (a b : ℤ) (h : b < a) : intRange a b = [] := by
  unfold intRange
  have e : (b + 1 - a).toNat = 0 := by omega
  rw [e]
  rfl

lemma intRange_singleton (a : ℤ) : intRange a a = [a] := by
  unfold intRange
  have e : (a + 1 - a).toNat = 1 := by omega
  have e1 : List.range 1 = [0] := by
    rw [show (1:ℕ) = 0 + 1 from rfl, List.range_succ, List.range_zero, List.nil_append]
  rw [e, e1, List.map_cons, List.map_nil]
  norm_num

lemma intRange_snoc (a b : ℤ) (h : a ≤ b + 1) :
    intRange a (b + 1) = intRange a b ++ [b + 1] := by
  unfold intRange
  have h1 : (b + 1 + 1 - a).toNat = (b + 1 - a).toNat + 1 := by omega
  have h2 : a + ((b + 1 - a).toNat : ℤ) = b + 1 := by omega
  rw [h1, List.range_succ, List.map_append, List.map_cons, List.map_nil, h2]

lemma Icc_succ_right_int (a b : ℤ) (hab : a ≤ b + 1) :
    Finset.Icc a (b + 1) = insert (b + 1) (Finset.Icc a b) := by
  ext m
  simp only [Finset.mem_Icc, Finset.mem_insert]
  omega

lemma sum_map_intRange_of_le (f : ℤ → ℝ) (a : ℤ) :
    ∀ b, a ≤ b → ((intRange a b).map f).sum = ∑ i ∈ Finset.Icc a b, f i := by
  refine Int.le_induction ?_ ?_
  · rw [intRange_singleton]
    simp
  · intro b hb ih
    rw [intRange_snoc a b (by omega), List.map_append, List.sum_append, ih,
      Icc_succ_right_int a b (by omega),
      Finset.sum_insert (by simp only [Finset.mem_Icc]; omega)]
    simp only [List.map_cons, List.map_nil, List.sum_cons, List.sum_nil]
    ring

lemma sum_map_intRange (f : ℤ → ℝ) (a b : ℤ) :
    ((intRange a b).map f).sum = ∑ i ∈ Finset.Icc a b, f i := by
  rcases lt_or_le b a with h | h
  · rw [intRange_empty a b h, Finset.Icc_eq_empty (by omega)]
    simp
  · exact sum_map_intRange_of_le f a b h

/-! ### Pointwise characterization of `addSource` and `add` -/

lemma addSource_apply (X Y : ℤ → ℝ) (nx ny : ℤ) (R : ℝ) (s : Source)
    (Z : ℤ → ℝ) (n : ℤ) :
    addSource X Y nx ny R s Z n = Z n + specContribution X Y nx ny R s n := by
  rw [addSource, depositRows_apply]
  congr 1
  rw [sum_map_intRange, specContribution]
  refine Finset.sum_congr rfl fun i _ => ?_
  rw [sum_map_intRange]
  refine Finset.sum_congr rfl fun j _ => ?_
  by_cases hc : i * ny + j = n
  · rw [if_pos hc, if_pos hc]
    simp only [cellTerm, hOf]
    ring_nf
  · rw [if_neg hc, if_neg hc]

lemma add_cons (X Y : ℤ → ℝ) (nx ny : ℤ) (R : ℝ) (s : Source)
    (ss : List Source) (Z : ℤ → ℝ) :
    add X Y nx ny R (s :: ss) Z =
      add X Y nx ny R ss (addSource X Y nx ny R s Z) := rfl

lemma add_apply (X Y : ℤ → ℝ) (nx ny : ℤ) (R : ℝ) (srcs : List Source)
    (Z : ℤ → ℝ) (n : ℤ) :
    add X Y nx ny R srcs Z n =
      Z n + ((srcs.map fun s => specContribution X Y nx ny R s n)).sum := by
  induction srcs generalizing Z with
  | nil => simp [add]
  | cons s ss ih =>
      rw [add_cons, ih, addSource_apply, List.map_cons, List.sum_cons]
      ring

/-! ### C1: the accumulator deposits exactly the spec's contributions -/

/-- C1: for sources with positive smoothing lengths, running `add` leaves
each cell `n` equal to its initial value plus the sum, over sources and
over the cells of each source's clipped inclusive rectangle whose linear
index `i*ny + j` equals `n`, of `weights[k] * W(r, h)` with
`h = 2.8 * hsml[k]` and `r` the Euclidean distance from the cell sample
point to the source; nothing else is added. -/
theorem add_deposits_spec_contributions (X Y : ℤ → ℝ) (nx ny : ℤ) (R : ℝ)
    (srcs : List Source) (Z : ℤ → ℝ) (hpos : ∀ s ∈ srcs, 0 < s.hsml) (n : ℤ) :
    add X Y nx ny R srcs Z n =
      Z n + ((srcs.map fun s => specContribution X Y nx ny R s n)).sum :=
  add_apply X Y nx ny R srcs Z n

/-- Witness for C1: a single unit-weight source at the origin on a 2 x 2
grid. -/
theorem add_deposits_spec_contributions_witness :
    (∀ s ∈ [(⟨0, 0, 1, 1⟩ : Source)], 0 < s.hsml) ∧
    add (fun _ => 0) (fun _ => 0) 2 2 1 [(⟨0, 0, 1, 1⟩ : Source)] (fun _ => 0) 0 =
      (fun _ : ℤ => (0:ℝ)) 0 +
        (([(⟨0, 0, 1, 1⟩ : Source)]).map
          (fun s => specContribution (fun _ => 0) (fun _ => 0) 2 2 1 s 0)).sum := by
  have hs : ∀ s ∈ [(⟨0, 0, 1, 1⟩ : Source)], 0 < s.hsml := by
    intro s hsm
    simp only [List.mem_singleton] at hsm
    subst hsm
    exact one_pos
  exact ⟨hs, add_deposits_spec_contributions _ _ 2 2 1 _ _ hs 0⟩

/-! ### C8: additivity across sources -/

/-- C8: in exact real arithmetic the accumulator is additive across
sources: running `add` on the concatenation of two source lists from a
zeroed grid gives, cell by cell, the sum of the grids produced by running
`add` on each list separately from a zeroed grid. -/
theorem add_additive_across_sources (X Y : ℤ → ℝ) (nx ny : ℤ) (R : ℝ)
    (l1 l2 : List Source) (n : ℤ) :
    add X Y nx ny R (l1 ++ l2) (fun _ => 0) n =
      add X Y nx ny R l1 (fun _ => 0) n +
        add X Y nx ny R l2 (fun _ => 0) n := by
  rw [add_apply, add_apply, add_apply, List.map_append, List.sum_append]
  ring

/-! ### C10: radial monotonicity of the kernel -/

lemma kernelShape_of_le_half (x : ℝ) (h : x ≤ 1 / 2) :
    kernelShape x = kernelBranch1 x := by
  unfold kernelShape
  rw [if_pos h]

lemma kernelShape_of_mid (x : ℝ) (h1 : ¬x ≤ 1 / 2) (h2 : x ≤ 1) :
    kernelShape x = kernelBranch2 x := by
  unfold kernelShape
  rw [if_neg h1, if_pos h2]

lemma kernelShape_of_gt_one (x : ℝ) (h2 : ¬x ≤ 1) :
    kernelShape x = 0 := by
  unfold kernelShape
  rw [if_neg fun c => h2 (le_trans c (by norm_num)), if_neg h2]

lemma kernelShape_antitone (x1 x2 : ℝ) (h0 : 0 ≤ x1) (h12 : x1 ≤ x2) :
    kernelShape x2 ≤ kernelShape x1 := by
  have h02 : 0 ≤ x2 := le_trans h0 h12
  by_cases a1 : x1 ≤ 1 / 2
  · by_cases a2 : x2 ≤ 1 / 2
    · rw [kernelShape_of_le_half x1 a1, kernelShape_of_le_half x2 a2]
      unfold kernelBranch1
      have e : x1 ^ 2 + x1 * x2 + x2 ^ 2 ≤ x1 + x2 := by
        nlinarith [mul_nonneg h0 (by linarith : (0:ℝ) ≤ 1 / 2 - x1),
          mul_nonneg h02 (by linarith : (0:ℝ) ≤ 1 / 2 - x2),
          mul_nonneg h0 (by linarith : (0:ℝ) ≤ 1 / 2 - x2)]
      nlinarith [mul_nonneg (by linarith : (0:ℝ) ≤ x2 - x1) (by linarith :
        (0:ℝ) ≤ x1 + x2 - (x1 ^ 2 + x1 * x2 + x2 ^ 2))]
    · by_cases a3 : x2 ≤ 1
      · rw [kernelShape_of_le_half x1 a1, kernelShape_of_mid x2 a2 a3]
        have g1 := kernelBranch1_ge_quarter x1 h0 a1
        have g2 : kernelBranch2 x2 ≤ 1 / 4 := by
          unfold kernelBranch2
          have hu : (0:ℝ) ≤ 1 - x2 := by linarith
          have hu2 : 1 - x2 ≤ 1 / 2 := by linarith
          nlinarith [mul_nonneg hu hu, mul_nonneg (mul_nonneg hu hu) hu]
        linarith
      · rw [kernelShape_of_le_half x1 a1, kernelShape_of_gt_one x2 a3]
        linarith [kernelBranch1_ge_quarter x1 h0 a1]
  · by_cases a3 : x2 ≤ 1
    · have a2 : ¬x2 ≤ 1 / 2 := fun c => a1 (le_trans h12 c)
      have b1 : x1 ≤ 1 := le_trans h12 a3
      rw [kernelShape_of_mid x1 a1 b1, kernelShape_of_mid x2 a2 a3]
      unfold kernelBranch2
      have hu1 : (0:ℝ) ≤ 1 - x1 := by linarith
      have hu2 : (0:ℝ) ≤ 1 - x2 := by linarith
      have q : (0:ℝ) ≤ (1 - x1) * (1 - x1) + (1 - x1) * (1 - x2) + (1 - x2) * (1 - x2) := by
        nlinarith [mul_nonneg hu1 hu1, mul_nonneg hu1 hu2, mul_nonneg hu2 hu2]
      nlinarith [mul_nonneg (by linarith : (0:ℝ) ≤ (1 - x1) - (1 - x2)) q]
    · rw [kernelShape_of_gt_one x2 a3]
      exact kernelShape_nonneg x1 h0

/-- C10: for every fixed h > 0 the kernel evaluator is monotone
non-increasing in r on the non-negative half line, and in particular it
attains its maximum at r = 0. -/
theorem sph_kernel_radially_antitone (h : ℝ) (hh : 0 < h) :
    (∀ r1 r2 : ℝ, 0 ≤ r1 → r1 ≤ r2 → sph_kernel r2 h ≤ sph_kernel r1 h) ∧
    (∀ r : ℝ, 0 ≤ r → sph_kernel r h ≤ sph_kernel 0 h) := by
  have main : ∀ r1 r2 : ℝ, 0 ≤ r1 → r1 ≤ r2 → sph_kernel r2 h ≤ sph_kernel r1 h := by
    intro r1 r2 h0 h12
    unfold sph_kernel
    refine mul_le_mul_of_nonneg_left ?_ (kernel_norm_pos h hh).le
    exact kernelShape_antitone (r1 / h) (r2 / h) (div_nonneg h0 hh.le)
      ((div_le_div_iff_of_pos_right hh).mpr h12)
  exact ⟨main, fun r hr => main 0 r le_rfl hr⟩

/-- Witness for C10 at h = 1, r1 = 1, r2 = 2. -/
theorem sph_kernel_radially_antitone_witness :
    (0:ℝ) < 1 ∧ (0:ℝ) ≤ 1 ∧ (1:ℝ) ≤ 2 ∧ sph_kernel 2 1 ≤ sph_kernel 1 1 :=
  ⟨one_pos, by norm_num, by norm_num,
    (sph_kernel_radially_antitone 1 one_pos).1 1 2 (by norm_num) (by norm_num)⟩

/-! ### C7: sources with an empty clipped box contribute nothing -/

lemma npix_le_rhalfs_of_beyond (t : ℝ) (npix : ℤ) (R : ℝ)
    (hn : 1 ≤ npix) (hR : 0 < R) (ht : R < t) :
    npix ≤ rhalfs_to_pixels t npix R := by
  unfold rhalfs_to_pixels
  rw [Int.le_floor]
  have h2R : (0:ℝ) < 2 * R := by linarith
  have hnp : (0:ℝ) < (npix : ℝ) := by
    have : (0:ℤ) < npix := by omega
    exact_mod_cast this
  have key : R * npix / (2 * R) < t * npix / (2 * R) :=
    (div_lt_div_iff_of_pos_right h2R).mpr (mul_lt_mul_of_pos_right ht hnp)
  have e : R * npix / (2 * R) = (npix : ℝ) / 2 := by
    field_simp
    ring
  rw [e] at key
  linarith

lemma rhalfs_neg_of_beyond (t : ℝ) (npix : ℤ) (R : ℝ)
    (hn : 1 ≤ npix) (hR : 0 < R) (ht : t < -R) :
    rhalfs_to_pixels t npix R < 0 := by
  unfold rhalfs_to_pixels
  have : ((0:ℤ):ℝ) = (0:ℝ) := by norm_num
  rw [Int.floor_lt, this]
  have h2R : (0:ℝ) < 2 * R := by linarith
  have hnp : (0:ℝ) < (npix : ℝ) := by
    have : (0:ℤ) < npix := by omega
    exact_mod_cast this
  have key : t * npix / (2 * R) < (-R) * npix / (2 * R) :=
    (div_lt_div_iff_of_pos_right h2R).mpr (mul_lt_mul_of_pos_right ht hnp)
  have e : (-R) * npix / (2 * R) = -((npix : ℝ) / 2) := by
    field_simp
    ring
  rw [e] at key
  linarith

/-- C7: a source whose clipped bounding box is empty (imax < imin or
jmax < jmin) contributes nothing to Z; in particular a source whose
position lies more than h = 2.8 * hsml beyond any domain edge leaves
every cell of Z unchanged. -/
theorem empty_box_contributes_nothing (X Y : ℤ → ℝ) (nx ny : ℤ) (R : ℝ)
    (s : Source) (Z : ℤ → ℝ) :
    ((imaxOf s ny R < iminOf s ny R ∨ jmaxOf s nx R < jminOf s nx R) →
      addSource X Y nx ny R s Z = Z) ∧
    (1 ≤ nx → 1 ≤ ny → 0 < R →
      (R + hOf s < s.x0 ∨ s.x0 < -(R + hOf s) ∨
        R + hOf s < s.y0 ∨ s.y0 < -(R + hOf s)) →
      addSource X Y nx ny R s Z = Z) := by
  have empty : (imaxOf s ny R < iminOf s ny R ∨ jmaxOf s nx R < jminOf s nx R) →
      addSource X Y nx ny R s Z = Z := by
    intro hcase
    funext n
    rw [addSource_apply, specContribution]
    rcases hcase with hc | hc
    · rw [Finset.Icc_eq_empty (by omega)]
      simp
    · rw [show Finset.Icc (jminOf s nx R) (jmaxOf s nx R) = (∅ : Finset ℤ) from
        Finset.Icc_eq_empty (by omega)]
      simp
  refine ⟨empty, fun hnx hny hR0 hcase => empty ?_⟩
  rcases hcase with hc | hc | hc | hc
  · right
    have h1 : (nx : ℤ) ≤ rhalfs_to_pixels (s.x0 - hOf s) nx R :=
      npix_le_rhalfs_of_beyond _ _ _ hnx hR0 (by linarith)
    have h2 : nx ≤ jminOf s nx R := le_trans h1 (le_max_right _ _)
    have h3 : jmaxOf s nx R ≤ nx - 1 := min_le_left _ _
    omega
  · right
    have h1 : rhalfs_to_pixels (s.x0 + hOf s) nx R < 0 :=
      rhalfs_neg_of_beyond _ _ _ hnx hR0 (by linarith)
    have h2 : jmaxOf s nx R < 0 := lt_of_le_of_lt (min_le_right _ _) h1
    have h3 : (0:ℤ) ≤ jminOf s nx R := le_max_left _ _
    omega
  · left
    have h1 : (ny : ℤ) ≤ rhalfs_to_pixels (s.y0 - hOf s) ny R :=
      npix_le_rhalfs_of_beyond _ _ _ hny hR0 (by linarith)
    have h2 : ny ≤ iminOf s ny R := le_trans h1 (le_max_right _ _)
    have h3 : imaxOf s ny R ≤ ny - 1 := min_le_left _ _
    omega
  · left
    have h1 : rhalfs_to_pixels (s.y0 + hOf s) ny R < 0 :=
      rhalfs_neg_of_beyond _ _ _ hny hR0 (by linarith)
    have h2 : imaxOf s ny R < 0 := lt_of_le_of_lt (min_le_right _ _) h1
    have h3 : (0:ℤ) ≤ iminOf s ny R := le_max_left _ _
    omega

/-- Witness for C7: a source at (5, 5) with hsml = 1/10 on a 2 x 2 grid
with domain half-width 1 leaves the zero grid unchanged. -/
theorem empty_box_contributes_nothing_witness :
    (1:ℤ) ≤ 2 ∧ (0:ℝ) < 1 ∧
    ((1:ℝ) + hOf ⟨5, 5, 1, 1 / 10⟩ < (⟨5, 5, 1, 1 / 10⟩ : Source).x0) ∧
    addSource (fun _ => 0) (fun _ => 0) 2 2 1 ⟨5, 5, 1, 1 / 10⟩ (fun _ => 0) =
      (fun _ : ℤ => (0:ℝ)) := by
  have hedge : (1:ℝ) + hOf ⟨5, 5, 1, 1 / 10⟩ < (⟨5, 5, 1, 1 / 10⟩ : Source).x0 := by
    show (1:ℝ) + 2.8 * (1 / 10) < 5
    norm_num
  exact ⟨by norm_num, by norm_num, hedge,
    (empty_box_contributes_nothing _ _ 2 2 1 _ _).2 (by norm_num) (by norm_num)
      (by norm_num) (Or.inl hedge)⟩

/-! ### C2: bounds safety of the clipped accesses -/

/-- Counterexample to C2 as stated: with nx = 1, ny = 3, num_rhalfs = 1
and a source at (0, 1) with weight 1 and hsml = 1 (all invariants of
section 3 satisfied), the loops access linear index n = 1*3 + 0 = 3,
which is not below nx*ny = 3: the access is out of bounds. -/
theorem clipping_oob_counterexample :
    (1:ℤ) ≤ 1 ∧ (1:ℤ) ≤ 3 ∧ (0:ℝ) < 1 ∧
    (0:ℝ) < (⟨0, 1, 1, 1⟩ : Source).hsml ∧
    accesses 1 3 1 ⟨0, 1, 1, 1⟩ 3 ∧ ¬((3:ℤ) < 1 * 3) := by
  have e1 : iminOf (⟨0, 1, 1, 1⟩ : Source) 3 1 = 0 := by
    unfold iminOf hOf num_hsml rhalfs_to_pixels
    norm_num
  have e2 : imaxOf (⟨0, 1, 1, 1⟩ : Source) 3 1 = 2 := by
    unfold imaxOf hOf num_hsml rhalfs_to_pixels
    norm_num
  have e3 : jminOf (⟨0, 1, 1, 1⟩ : Source) 1 1 = 0 := by
    unfold jminOf hOf num_hsml rhalfs_to_pixels
    norm_num
  have e4 : jmaxOf (⟨0, 1, 1, 1⟩ : Source) 1 1 = 0 := by
    unfold jmaxOf hOf num_hsml rhalfs_to_pixels
    norm_num
  refine ⟨le_refl 1, by norm_num, by norm_num, one_pos, ?_, by norm_num⟩
  exact ⟨1, 0, by rw [e1]; norm_num, by rw [e2]; norm_num, by rw [e3],
    by rw [e4], by norm_num⟩

/-- C2 amended: under the invariants of section 3 and the additional
hypothesis ny ≤ nx (in particular for every square grid), every linear
index accessed by the loops of `add` satisfies 0 ≤ n < nx*ny. -/
theorem clipped_accesses_in_bounds (nx ny : ℤ) (R : ℝ) (s : Source) (n : ℤ)
    (hnx : 1 ≤ nx) (hny : 1 ≤ ny) (hR : 0 < R) (hsm : 0 < s.hsml)
    (hyx : ny ≤ nx) (hacc : accesses nx ny R s n) :
    0 ≤ n ∧ n < nx * ny := by
  obtain ⟨i, j, hi1, hi2, hj1, hj2, hn⟩ := hacc
  have hi0 : (0:ℤ) ≤ i := le_trans (le_max_left _ _) hi1
  have hiy : i ≤ ny - 1 := le_trans hi2 (min_le_left _ _)
  have hj0 : (0:ℤ) ≤ j := le_trans (le_max_left _ _) hj1
  have hjx : j ≤ nx - 1 := le_trans hj2 (min_le_left _ _)
  subst hn
  constructor
  · have := mul_nonneg hi0 (by omega : (0:ℤ) ≤ ny)
    omega
  · nlinarith [mul_le_mul_of_nonneg_right hiy (by omega : (0:ℤ) ≤ ny),
      mul_le_mul_of_nonneg_left hyx (by omega : (0:ℤ) ≤ ny - 1)]

/-- Witness for the amended C2 on a 2 x 2 grid with a central source. -/
theorem clipped_accesses_in_bounds_witness :
    ((1:ℤ) ≤ 2 ∧ (0:ℝ) < 1 ∧ (0:ℝ) < (⟨0, 0, 1, 1⟩ : Source).hsml ∧
      (2:ℤ) ≤ 2 ∧ accesses 2 2 1 ⟨0, 0, 1, 1⟩ 0) ∧
    (0 ≤ (0:ℤ) ∧ (0:ℤ) < 2 * 2) := by
  have e1 : iminOf (⟨0, 0, 1, 1⟩ : Source) 2 1 = 0 := by
    unfold iminOf hOf num_hsml rhalfs_to_pixels
    norm_num
  have e2 : imaxOf (⟨0, 0, 1, 1⟩ : Source) 2 1 = 1 := by
    unfold imaxOf hOf num_hsml rhalfs_to_pixels
    norm_num
  have e3 : jminOf (⟨0, 0, 1, 1⟩ : Source) 2 1 = 0 := by
    unfold jminOf hOf num_hsml rhalfs_to_pixels
    norm_num
  have e4 : jmaxOf (⟨0, 0, 1, 1⟩ : Source) 2 1 = 1 := by
    unfold jmaxOf hOf num_hsml rhalfs_to_pixels
    norm_num
  have hacc : accesses 2 2 1 (⟨0, 0, 1, 1⟩ : Source) 0 :=
    ⟨0, 0, by rw [e1], by rw [e2]; norm_num, by rw [e3], by rw [e4]; norm_num,
      by norm_num⟩
  exact ⟨⟨by norm_num, by norm_num, one_pos, le_refl 2, hacc⟩,
    clipped_accesses_in_bounds 2 2 1 _ 0 (by norm_num) (by norm_num)
      (by norm_num) one_pos (le_refl 2) hacc⟩

/-! ### C4: which coordinate feeds which axis bounds -/

/-- Counterexample to C4 as stated: resolving x0 against ny does not give
the row bounds the code computes. At ny = 4, num_rhalfs = 1 and a source
at (0.9, -0.9) with hsml = 0.01, the code's imin is 0 while the claimed
pairing gives 3. -/
theorem bounds_pairing_counterexample :
    iminOf ⟨9 / 10, -9 / 10, 1, 1 / 100⟩ 4 1 ≠
      (claimedRowBounds ⟨9 / 10, -9 / 10, 1, 1 / 100⟩ 4 1).1 := by
  have e1 : iminOf (⟨9 / 10, -9 / 10, 1, 1 / 100⟩ : Source) 4 1 = 0 := by
    unfold iminOf hOf num_hsml rhalfs_to_pixels
    norm_num
  have e2 : (claimedRowBounds (⟨9 / 10, -9 / 10, 1, 1 / 100⟩ : Source) 4 1).1 = 3 := by
    unfold claimedRowBounds hOf num_hsml rhalfs_to_pixels
    norm_num
  rw [e1, e2]
  norm_num

/-- C4 amended: the row bounds imin/imax are obtained by resolving
y0[k] - h and y0[k] + h through the coordinate mapper against ny, and the
column bounds jmin/jmax by resolving x0[k] - h and x0[k] + h against nx,
each bound then clipped to its axis range. -/
theorem bounds_pairing_amended (s : Source) (nx ny : ℤ) (R : ℝ) :
    (iminOf s ny R, imaxOf s ny R) = amendedRowBounds s ny R ∧
    (jminOf s nx R, jmaxOf s nx R) = amendedColBounds s nx R :=
  ⟨rfl, rfl⟩

end AdaptiveSmoothing
